import Mathlib

/-!
Shallow embedding of the bounded TTL cache from the JS-Cheat repository
(the `Cache` constructor built on a JavaScript `Map`), together with
theorems settling the specification claims about it.

A JavaScript `Map` keeps its entries in insertion order: `set` on a present
key updates the value in place, `set` on an absent key appends at the end,
`delete` removes the entry, and `keys().next().value` is the first key in
insertion order (or `undefined` on an empty map, in which case the
subsequent `delete` is a no-op).  We model the map as an association list
`List (String × CacheEntry)` whose order is the insertion order, head
first.  Time (`Date.now()`) is passed explicitly as an integer number of
milliseconds.
-/

/-- JavaScript values as far as the cache observes them: the `null`
sentinel returned for absent entries, numbers, and strings. -/
inductive JSVal where
  | vnull : JSVal
  | vnum : Int → JSVal
  | vstr : String → JSVal
deriving DecidableEq, Repr

/-- The object stored per key: `{ value, expiry: Date.now() + ttl }`. -/
structure CacheEntry where
  value : JSVal
  expiry : Int
deriving DecidableEq, Repr

/-- The backing store of the cache: a JavaScript `Map` in insertion order. -/
abbrev Store := List (String × CacheEntry)

/-- Lookup in a JavaScript `Map` (`map.get(key)`): first entry whose key
matches, `undefined` (here `none`) otherwise. -/
def mapGet : Store → String → Option CacheEntry
  | [], _ => none
  | p :: t, k => if p.1 = k then some p.2 else mapGet t k

/-- Insertion into a JavaScript `Map` (`map.set(key, e)`): a present key is
updated in place, keeping its position in insertion order; an absent key is
appended at the end. -/
def mapSet : Store → String → CacheEntry → Store
  | [], k, e => [(k, e)]
  | p :: t, k, e => if p.1 = k then (k, e) :: t else p :: mapSet t k e

/-- Removal from a JavaScript `Map` (`map.delete(key)`): removes the entry
with the given key; a no-op when the key is absent. -/
def mapDelete : Store → String → Store
  | [], _ => []
  | p :: t, k => if p.1 = k then t else p :: mapDelete t k

/-- The key returned by `map.keys().next().value`: the first key in
insertion order, or `undefined` (`none`) on an empty map. -/
def firstKey (m : Store) : Option String :=
  m.head?.map Prod.fst

/-- The cache object: a `Map` called `cache` and a fixed `maxSize`. -/
structure Cache where
  cache : Store
  maxSize : Int
deriving DecidableEq, Repr

/-- The constructor `function Cache(maxSize = 100)`: no validation of
`maxSize` is performed; omitting the argument gives 100. -/
def Cache.init (maxSize : Option Int) : Cache :=
  ⟨[], maxSize.getD 100⟩

/-- The method `set(key, value, ttl = 60000)`: when `cache.size >= maxSize`
the first key in insertion order is deleted (a no-op on an empty map), then
the entry `{ value, expiry: now + ttl }` is written under `key`. -/
def Cache.set (c : Cache) (key : String) (v : JSVal) (ttl : Option Int) (now : Int) : Cache :=
  let t := ttl.getD 60000
  let m :=
    if (c.cache.length : Int) ≥ c.maxSize then
      match firstKey c.cache with
      | some fk => mapDelete c.cache fk
      | none => c.cache
    else c.cache
  ⟨mapSet m key ⟨v, now + t⟩, c.maxSize⟩

/-- The method `get(key)`: `null` when the key is absent; when the entry is
present but `now > expiry`, the entry is deleted and `null` is returned;
otherwise the stored value is returned.  The returned pair carries the
value and the possibly mutated cache. -/
def Cache.get (c : Cache) (key : String) (now : Int) : JSVal × Cache :=
  match mapGet c.cache key with
  | none => (JSVal.vnull, c)
  | some data =>
    if now > data.expiry then (JSVal.vnull, ⟨mapDelete c.cache key, c.maxSize⟩)
    else (data.value, c)

/-- The method `clear()`: empties the backing map. -/
def Cache.clear (c : Cache) : Cache :=
  ⟨[], c.maxSize⟩

/-- An operation on the cache, as invoked by a client. -/
inductive Op where
  | put : String → JSVal → Option Int → Op
  | get : String → Op
  | clear : Op
deriving DecidableEq, Repr

/-- One operation applied to the cache at a given time (the value of
`Date.now()` during that call). -/
def step (c : Cache) : Op × Int → Cache
  | (Op.put k v ttl, now) => c.set k v ttl now
  | (Op.get k, now) => (c.get k now).2
  | (Op.clear, _) => c.clear

/-- A whole trace of timed operations applied in order. -/
def run (c : Cache) (ops : List (Op × Int)) : Cache :=
  ops.foldl step c

/-- Times in a trace are non-decreasing and bounded below by `t`
(`Date.now()` never goes backwards). -/
def TimesMono : Int → List (Op × Int) → Prop
  | _, [] => True
  | t, o :: rest => t ≤ o.2 ∧ TimesMono o.2 rest

/-- The time of the last operation of a trace (the bound `t` when the trace
is empty). -/
def lastTime : Int → List (Op × Int) → Int
  | t, [] => t
  | _, o :: rest => lastTime o.2 rest

/-- Ghost bookkeeping: the entry written by the most recent `put` for each
key, reset by `clear`. -/
def updLast (L : String → Option CacheEntry) : Op × Int → String → Option CacheEntry
  | (Op.put k v ttl, now) => fun q => if q = k then some ⟨v, now + ttl.getD 60000⟩ else L q
  | (Op.get _, _) => L
  | (Op.clear, _) => fun _ => none

/-- The most recent `put` entry for each key after a whole trace. -/
def lastFrom (L : String → Option CacheEntry) (ops : List (Op × Int)) :
    String → Option CacheEntry :=
  ops.foldl updLast L

/-- A trace is safe when every `put` happens either while the store is
strictly below capacity or targets the store's current first (oldest) key,
so that the eviction in `set` can never remove an unrelated entry. -/
def SafeTrace : Cache → List (Op × Int) → Prop
  | _, [] => True
  | c, o :: rest =>
    (match o.1 with
     | Op.put k _ _ => (c.cache.length : Int) < c.maxSize ∨ firstKey c.cache = some k
     | _ => True) ∧ SafeTrace (step c o) rest

/-- The keys of the store are pairwise distinct, as they are in a
JavaScript `Map`. -/
def keysNodup (m : Store) : Prop :=
  (m.map Prod.fst).Nodup

instance (m : Store) : Decidable (keysNodup m) :=
  inferInstanceAs (Decidable ((m.map Prod.fst).Nodup))

/-- The cache tracks the ghost map `L` of most recent `put` entries, up to
lazy expiration: a key whose last put entry is `e` is either stored exactly
as `e`, or already lazily deleted, which can only have happened at a read
strictly after `e.expiry`, hence `e.expiry < t` for the current time bound
`t`.  Keys never put are absent.  The store keys stay pairwise distinct. -/
def TracksLast (c : Cache) (L : String → Option CacheEntry) (t : Int) : Prop :=
  keysNodup c.cache ∧
  ∀ k, (∀ e, L k = some e →
          (mapGet c.cache k = some e ∨ (mapGet c.cache k = none ∧ e.expiry < t))) ∧
       (L k = none → mapGet c.cache k = none)

theorem mapGet_mapSet_self (m : Store) (k : String) (e : CacheEntry) :
    mapGet (mapSet m k e) k = some e := by
  induction m with
  | nil => simp [mapSet, mapGet]
  | cons p t ih =>
    by_cases h : p.1 = k
    · simp [mapSet, h, mapGet]
    · simp [mapSet, h, mapGet, ih]

theorem mapGet_mapSet_ne (m : Store) (k q : String) (e : CacheEntry) (h : q ≠ k) :
    mapGet (mapSet m k e) q = mapGet m q := by
  induction m with
  | nil => simp [mapSet, mapGet, Ne.symm h]
  | cons p t ih =>
    by_cases hp : p.1 = k
    · subst hp
      simp [mapSet, mapGet, Ne.symm h]
    · by_cases hq : p.1 = q
      · simp only [mapSet, if_neg hp, mapGet, if_pos hq]
      · simp [mapSet, hp, mapGet, hq, ih]

theorem mapGet_mapDelete_ne (m : Store) (k q : String) (h : q ≠ k) :
    mapGet (mapDelete m k) q = mapGet m q := by
  induction m with
  | nil => simp [mapDelete]
  | cons p t ih =>
    by_cases hp : p.1 = k
    · simp [mapDelete, hp, mapGet, Ne.symm h]
    · by_cases hq : p.1 = q
      · simp only [mapDelete, if_neg hp, mapGet, if_pos hq]
      · simp [mapDelete, hp, mapGet, hq, ih]

theorem mapGet_eq_none_iff (m : Store) (k : String) :
    mapGet m k = none ↔ k ∉ m.map Prod.fst := by
  induction m with
  | nil => simp [mapGet]
  | cons p t ih =>
    by_cases hp : p.1 = k
    · simp [mapGet, hp]
    · simp [mapGet, hp, ih, Ne.symm hp]

theorem mapDelete_sublist (m : Store) (k : String) :
    (mapDelete m k).Sublist m := by
  induction m with
  | nil => simp [mapDelete]
  | cons p t ih =>
    by_cases hp : p.1 = k
    · simp only [mapDelete, if_pos hp]
      exact List.sublist_cons_self p t
    · simpa [mapDelete, hp] using List.Sublist.cons₂ p ih

theorem mapGet_mapDelete_self (m : Store) (k : String) (h : keysNodup m) :
    mapGet (mapDelete m k) k = none := by
  induction m with
  | nil => simp [mapDelete, mapGet]
  | cons p t ih =>
    have ht : keysNodup t := (List.nodup_cons.mp h).2
    by_cases hp : p.1 = k
    · subst hp
      rw [mapGet_eq_none_iff]
      simpa [mapDelete] using (List.nodup_cons.mp h).1
    · simp [mapDelete, hp, mapGet, ih ht]

theorem mapSet_map_fst_of_mem (m : Store) (k : String) (e : CacheEntry)
    (h : (mapGet m k).isSome) :
    (mapSet m k e).map Prod.fst = m.map Prod.fst := by
  induction m with
  | nil => simp [mapGet] at h
  | cons p t ih =>
    by_cases hp : p.1 = k
    · simp [mapSet, hp]
    · simp [mapGet, hp] at h
      simp [mapSet, hp, ih h]

theorem mapSet_map_fst_of_not_mem (m : Store) (k : String) (e : CacheEntry)
    (h : mapGet m k = none) :
    (mapSet m k e).map Prod.fst = m.map Prod.fst ++ [k] := by
  induction m with
  | nil => simp [mapSet]
  | cons p t ih =>
    by_cases hp : p.1 = k
    · simp [mapGet, hp] at h
    · simp [mapGet, hp] at h
      simp [mapSet, hp, ih h]

theorem keysNodup_mapSet (m : Store) (k : String) (e : CacheEntry)
    (h : keysNodup m) : keysNodup (mapSet m k e) := by
  cases hm : mapGet m k with
  | none =>
    unfold keysNodup
    rw [mapSet_map_fst_of_not_mem m k e hm]
    have hk : k ∉ m.map Prod.fst := (mapGet_eq_none_iff m k).mp hm
    exact List.Nodup.append h (List.nodup_singleton k)
      (by simpa [List.disjoint_singleton] using hk)
  | some d =>
    unfold keysNodup
    rw [mapSet_map_fst_of_mem m k e (by simp [hm])]
    exact h

theorem keysNodup_mapDelete (m : Store) (k : String)
    (h : keysNodup m) : keysNodup (mapDelete m k) := by
  exact ((mapDelete_sublist m k).map Prod.fst).nodup h

theorem mapSet_length (m : Store) (k : String) (e : CacheEntry) :
    (mapSet m k e).length =
      if (mapGet m k).isSome then m.length else m.length + 1 := by
  induction m with
  | nil => simp [mapSet, mapGet]
  | cons p t ih =>
    by_cases hp : p.1 = k
    · simp [mapSet, hp, mapGet]
    · by_cases hm : (mapGet t k).isSome <;>
        simp [mapSet, hp, mapGet, ih, hm]

theorem mapDelete_length_le (m : Store) (k : String) :
    (mapDelete m k).length ≤ m.length :=
  (mapDelete_sublist m k).length_le

theorem mapDelete_head (p : String × CacheEntry) (t : Store) :
    mapDelete (p :: t) p.1 = t := by
  simp [mapDelete]

theorem firstKey_mapGet (m : Store) (fk : String) (h : firstKey m = some fk) :
    ∃ d, mapGet m fk = some d := by
  cases m with
  | nil => simp [firstKey] at h
  | cons p t =>
    simp only [firstKey, List.head?_cons, Option.map_some', Option.some.injEq] at h
    exact ⟨p.2, by simp [mapGet, h]⟩

theorem mapDelete_firstKey (m : Store) (fk : String) (h : firstKey m = some fk) :
    mapDelete m fk = m.tail := by
  cases m with
  | nil => simp [firstKey] at h
  | cons p t =>
    simp only [firstKey, List.head?_cons, Option.map_some', Option.some.injEq] at h
    simp [mapDelete, h]

theorem set_maxSize (c : Cache) (key : String) (v : JSVal) (ttl : Option Int) (now : Int) :
    (c.set key v ttl now).maxSize = c.maxSize := rfl

theorem get_maxSize (c : Cache) (key : String) (now : Int) :
    ((c.get key now).2).maxSize = c.maxSize := by
  unfold Cache.get
  cases mapGet c.cache key with
  | none => rfl
  | some d =>
    by_cases h : now > d.expiry <;> simp [h]

theorem step_maxSize (c : Cache) (o : Op × Int) :
    (step c o).maxSize = c.maxSize := by
  obtain ⟨op, now⟩ := o
  cases op with
  | put k v ttl => rfl
  | get k => exact get_maxSize c k now
  | clear => rfl

theorem step_size_le (c : Cache) (o : Op × Int) (hpos : 1 ≤ c.maxSize)
    (hle : (c.cache.length : Int) ≤ c.maxSize) :
    ((step c o).cache.length : Int) ≤ c.maxSize := by
  obtain ⟨op, now⟩ := o
  cases op with
  | clear =>
    simp only [step, Cache.clear, List.length_nil, Nat.cast_zero]
    omega
  | get k =>
    simp only [step]
    unfold Cache.get
    cases hm : mapGet c.cache k with
    | none => exact hle
    | some d =>
      by_cases hx : now > d.expiry
      · simp only [hx, if_pos]
        have := mapDelete_length_le c.cache k
        omega
      · simp only [hx, if_neg, not_false_iff]
        exact hle
  | put k v ttl =>
    simp only [step]
    unfold Cache.set
    by_cases hc : (c.cache.length : Int) ≥ c.maxSize
    · have hne : c.cache ≠ [] := by
        intro h0
        rw [h0] at hc
        simp at hc
        omega
      obtain ⟨p, t, hpt⟩ := List.exists_cons_of_ne_nil hne
      have hfk : firstKey c.cache = some p.1 := by simp [hpt, firstKey]
      simp only [hc, if_pos, hfk]
      rw [mapDelete_firstKey c.cache p.1 hfk]
      have h1 := mapSet_length c.cache.tail k ⟨v, now + ttl.getD 60000⟩
      have h2 : c.cache.tail.length + 1 = c.cache.length := by
        rw [hpt]; simp
      by_cases hm : (mapGet c.cache.tail k).isSome <;> simp [hm] at h1 <;> omega
    · simp only [hc, if_neg, not_false_iff]
      have h1 := mapSet_length c.cache k ⟨v, now + ttl.getD 60000⟩
      by_cases hm : (mapGet c.cache k).isSome <;> simp [hm] at h1 <;> omega

theorem step_tracks (c : Cache) (L : String → Option CacheEntry) (t : Int) (o : Op × Int)
    (htr : TracksLast c L t) (hmono : t ≤ o.2)
    (hsafe : match o.1 with
      | Op.put k _ _ => (c.cache.length : Int) < c.maxSize ∨ firstKey c.cache = some k
      | _ => True) :
    TracksLast (step c o) (updLast L o) o.2 := by
  obtain ⟨hwf, hL⟩ := htr
  obtain ⟨op, now⟩ := o
  cases op with
  | clear =>
    refine ⟨by simp [step, Cache.clear, keysNodup], fun k => ⟨?_, ?_⟩⟩
    · intro e he
      simp [updLast] at he
    · intro _
      simp [step, Cache.clear, mapGet]
  | get q =>
    have hL' : updLast L (Op.get q, now) = L := rfl
    rw [hL']
    simp only [step]
    unfold Cache.get
    cases hm : mapGet c.cache q with
    | none =>
      refine ⟨hwf, fun k => ⟨?_, (hL k).2⟩⟩
      intro e he
      rcases (hL k).1 e he with h | ⟨h1, h2⟩
      · exact Or.inl h
      · exact Or.inr ⟨h1, by omega⟩
    | some d =>
      by_cases hx : now > d.expiry
      · simp only [hx, if_true]
        refine ⟨keysNodup_mapDelete _ _ hwf, fun k => ⟨?_, ?_⟩⟩
        · intro e he
          by_cases hk : k = q
          · subst hk
            rcases (hL k).1 e he with h | ⟨h1, h2⟩
            · have hed : e = d := by
                rw [h] at hm
                exact (Option.some.inj hm)
              subst hed
              exact Or.inr ⟨mapGet_mapDelete_self _ _ hwf, hx⟩
            · rw [h1] at hm
              exact absurd hm (by simp)
          · rw [mapGet_mapDelete_ne _ _ _ hk]
            rcases (hL k).1 e he with h | ⟨h1, h2⟩
            · exact Or.inl h
            · exact Or.inr ⟨h1, by omega⟩
        · intro hnone
          by_cases hk : k = q
          · subst hk
            exact mapGet_mapDelete_self _ _ hwf
          · rw [mapGet_mapDelete_ne _ _ _ hk]
            exact (hL k).2 hnone
      · simp only [hx, if_false]
        refine ⟨hwf, fun k => ⟨?_, (hL k).2⟩⟩
        intro e he
        rcases (hL k).1 e he with h | ⟨h1, h2⟩
        · exact Or.inl h
        · exact Or.inr ⟨h1, by omega⟩
  | put q v ttl =>
    simp only [step, Cache.set]
    by_cases hfull : (c.cache.length : Int) ≥ c.maxSize
    · have hfk : firstKey c.cache = some q := by
        rcases hsafe with hlt | hfk
        · omega
        · exact hfk
      rw [if_pos hfull, hfk]
      refine ⟨keysNodup_mapSet _ _ _ (keysNodup_mapDelete _ _ hwf), fun k => ⟨?_, ?_⟩⟩
      · intro e he
        simp only [updLast] at he
        by_cases hk : k = q
        · subst hk
          rw [if_pos rfl] at he
          exact Or.inl (by rw [mapGet_mapSet_self, he])
        · rw [if_neg hk] at he
          rw [mapGet_mapSet_ne _ _ _ _ hk, mapGet_mapDelete_ne _ _ _ hk]
          rcases (hL k).1 e he with h | ⟨h1, h2⟩
          · exact Or.inl h
          · exact Or.inr ⟨h1, by omega⟩
      · intro hnone
        simp only [updLast] at hnone
        by_cases hk : k = q
        · rw [if_pos hk] at hnone
          exact absurd hnone (by simp)
        · rw [if_neg hk] at hnone
          rw [mapGet_mapSet_ne _ _ _ _ hk, mapGet_mapDelete_ne _ _ _ hk]
          exact (hL k).2 hnone
    · rw [if_neg hfull]
      refine ⟨keysNodup_mapSet _ _ _ hwf, fun k => ⟨?_, ?_⟩⟩
      · intro e he
        simp only [updLast] at he
        by_cases hk : k = q
        · subst hk
          rw [if_pos rfl] at he
          exact Or.inl (by rw [mapGet_mapSet_self, he])
        · rw [if_neg hk] at he
          rw [mapGet_mapSet_ne _ _ _ _ hk]
          rcases (hL k).1 e he with h | ⟨h1, h2⟩
          · exact Or.inl h
          · exact Or.inr ⟨h1, by omega⟩
      · intro hnone
        simp only [updLast] at hnone
        by_cases hk : k = q
        · rw [if_pos hk] at hnone
          exact absurd hnone (by simp)
        · rw [if_neg hk] at hnone
          rw [mapGet_mapSet_ne _ _ _ _ hk]
          exact (hL k).2 hnone

theorem run_tracks (ops : List (Op × Int)) :
    ∀ (c : Cache) (L : String → Option CacheEntry) (t : Int),
      TimesMono t ops → SafeTrace c ops → TracksLast c L t →
      TracksLast (run c ops) (lastFrom L ops) (lastTime t ops) := by
  induction ops with
  | nil =>
    intro c L t _ _ h
    simpa [run, lastFrom, lastTime] using h
  | cons o rest ih =>
    intro c L t hmono hsafe htr
    simp only [TimesMono] at hmono
    simp only [SafeTrace] at hsafe
    have hstep := step_tracks c L t o htr hmono.1 hsafe.1
    simpa [run, lastFrom, lastTime] using
      ih (step c o) (updLast L o) o.2 hmono.2 hsafe.2 hstep

theorem step_size_le_one (c : Cache) (o : Op × Int) (hN : c.maxSize ≤ 0)
    (hle : c.cache.length ≤ 1) : (step c o).cache.length ≤ 1 := by
  obtain ⟨op, now⟩ := o
  cases op with
  | clear => simp [step, Cache.clear]
  | get k =>
    simp only [step]
    unfold Cache.get
    cases hm : mapGet c.cache k with
    | none => exact hle
    | some d =>
      by_cases hx : now > d.expiry
      · simp only [hx, if_true]
        have := mapDelete_length_le c.cache k
        omega
      · simp only [hx, if_false]
        exact hle
  | put k v ttl =>
    simp only [step]
    unfold Cache.set
    have hc : (c.cache.length : Int) ≥ c.maxSize := by
      have h0 : (0 : Int) ≤ (c.cache.length : Int) := Int.ofNat_nonneg _
      omega
    rw [if_pos hc]
    cases hcc : c.cache with
    | nil => simp [firstKey, mapSet]
    | cons p tl =>
      have htl : tl = [] := by
        rw [hcc] at hle
        simp only [List.length_cons] at hle
        exact List.length_eq_zero.mp (by omega)
      subst htl
      simp [firstKey, mapDelete, mapSet]

/-- C3: for every cache constructed with a positive integer capacity and
every finite trace of put, get and clear operations, the store size never
exceeds the capacity; since the trace is arbitrary, instantiating it at
each prefix gives the bound after every single operation. -/
theorem cache_size_bounded (N : Int) (hpos : 0 < N) (ops : List (Op × Int)) :
    ((run (Cache.init (some N)) ops).cache.length : Int) ≤ N := by
  suffices h : ∀ (c : Cache), c.maxSize = N → (c.cache.length : Int) ≤ N →
      ((run c ops).cache.length : Int) ≤ N by
    refine h _ rfl ?_
    simp [Cache.init]
    omega
  induction ops with
  | nil =>
    intro c h1 h2
    simpa [run] using h2
  | cons o rest ih =>
    intro c h1 h2
    have h3 : ((step c o).cache.length : Int) ≤ N := by
      have h5 := step_size_le c o (by omega) (by omega)
      omega
    have h4 : (step c o).maxSize = N := (step_maxSize c o).trans h1
    simpa [run] using ih (step c o) h4 h3

theorem cache_size_bounded_witness :
    (0 : Int) < 2 ∧
    (((run (Cache.init (some 2))
        [(Op.put "a" (JSVal.vnum 1) (some 1000), 0),
         (Op.put "b" (JSVal.vnum 2) none, 1),
         (Op.put "c" (JSVal.vnum 3) (some 9), 2),
         (Op.get "a", 3),
         (Op.clear, 4)]).cache.length : Int) ≤ 2) :=
  ⟨by decide,
   cache_size_bounded 2 (by decide)
     [(Op.put "a" (JSVal.vnum 1) (some 1000), 0),
      (Op.put "b" (JSVal.vnum 2) none, 1),
      (Op.put "c" (JSVal.vnum 3) (some 9), 2),
      (Op.get "a", 3),
      (Op.clear, 4)]⟩

/-- C6, counterexample: constructing a cache with capacity 0 is not
rejected — the constructor performs no validation at all — and the
resulting object is a functioning cache: a put followed by a get returns
the stored value, contradicting fail-fast rejection at construction
time. -/
theorem zero_capacity_construction_accepted :
    (Cache.init (some 0)).maxSize = 0 ∧
    ((((Cache.init (some 0)).set "a" (JSVal.vnum 1) none 0).get "a" 0).1
      = JSVal.vnum 1) := by
  decide

/-- C6 (amended): a zero or negative capacity is accepted silently rather
than rejected; the resulting cache neither fails fast nor is unbounded nor
always-empty: every put first evicts the current first entry, so the store
holds at most one entry after any trace, while a single put on the fresh
cache does store exactly one entry. -/
theorem nonpositive_capacity_acts_as_one (N : Int) (hN : N ≤ 0)
    (ops : List (Op × Int)) :
    (run (Cache.init (some N)) ops).cache.length ≤ 1 ∧
    ((Cache.init (some N)).set "a" (JSVal.vnum 1) none 0).cache.length = 1 := by
  constructor
  · suffices h : ∀ (c : Cache), c.maxSize = N → c.cache.length ≤ 1 →
        (run c ops).cache.length ≤ 1 by
      exact h _ rfl (by simp [Cache.init])
    induction ops with
    | nil =>
      intro c h1 h2
      simpa [run] using h2
    | cons o rest ih =>
      intro c h1 h2
      have h3 := step_size_le_one c o (by omega) h2
      have h4 : (step c o).maxSize = N := (step_maxSize c o).trans h1
      simpa [run] using ih (step c o) h4 h3
  · have hge : ((Cache.init (some N)).cache.length : Int) ≥ (Cache.init (some N)).maxSize := by
      simp [Cache.init]
      omega
    simp [Cache.set, hge, Cache.init, firstKey, mapSet]

theorem nonpositive_capacity_acts_as_one_witness :
    (-3 : Int) ≤ 0 ∧
    (run (Cache.init (some (-3)))
      [(Op.put "a" (JSVal.vnum 1) none, 0),
       (Op.put "b" (JSVal.vnum 2) none, 1)]).cache.length ≤ 1 :=
  ⟨by decide,
   (nonpositive_capacity_acts_as_one (-3) (by decide)
     [(Op.put "a" (JSVal.vnum 1) none, 0),
      (Op.put "b" (JSVal.vnum 2) none, 1)]).1⟩

/-- C8: after clear() the store is empty and a get on any key — in
particular any previously present one — returns the absent sentinel. -/
theorem clear_then_get_absent (c : Cache) (key : String) (now : Int) :
    (c.clear).cache = [] ∧ ((c.clear).get key now).1 = JSVal.vnull :=
  ⟨rfl, by simp [Cache.clear, Cache.get, mapGet]⟩

/-- C9: calling put without a ttl behaves exactly as ttl = 60000 ms, and
constructing without a capacity behaves exactly as capacity = 100. -/
theorem default_ttl_and_capacity (c : Cache) (key : String) (v : JSVal) (now : Int) :
    c.set key v none now = c.set key v (some 60000) now ∧
    Cache.init none = Cache.init (some 100) ∧
    (Cache.init none).maxSize = 100 :=
  ⟨rfl, rfl, rfl⟩

/-- C1, counterexample: capacity 2 with only the two distinct keys "a" and
"b".  Re-putting "b" while the store is full evicts "a", so a get on "a"
at time 0 returns null even though the entry of "a"'s most recent put has
expiry 1000, which has not elapsed at time 0. -/
theorem overwrite_at_capacity_breaks_get :
    lastFrom (fun _ => none)
        [(Op.put "a" (JSVal.vnum 1) (some 1000), 0),
         (Op.put "b" (JSVal.vnum 2) (some 1000), 0),
         (Op.put "b" (JSVal.vnum 3) (some 1000), 0)] "a"
      = some ⟨JSVal.vnum 1, 1000⟩ ∧
    (0 : Int) ≤ 1000 ∧
    ((run (Cache.init (some 2))
        [(Op.put "a" (JSVal.vnum 1) (some 1000), 0),
         (Op.put "b" (JSVal.vnum 2) (some 1000), 0),
         (Op.put "b" (JSVal.vnum 3) (some 1000), 0)]).get "a" 0).1 = JSVal.vnull := by
  refine ⟨by decide, by decide, by decide⟩

/-- C1 (amended): over any time-monotone trace of puts and interleaved
gets from a fresh cache, using at most `capacity` distinct keys, in which
every put performed while the store already holds at least `capacity`
entries targets the store's current first (oldest) key, a get on any put
key returns that key's most recently put value, as long as that put's TTL
has not yet elapsed at the (not earlier) time of the get. -/
theorem safe_trace_get_last_put (N : Int) (ops : List (Op × Int)) (k : String)
    (e : CacheEntry) (t0 now : Int)
    (hmono : TimesMono t0 ops)
    (hsafe : SafeTrace (Cache.init (some N)) ops)
    (hlast : lastFrom (fun _ => none) ops k = some e)
    (hnow1 : lastTime t0 ops ≤ now) (hnow2 : now ≤ e.expiry) :
    ((run (Cache.init (some N)) ops).get k now).1 = e.value := by
  have h0 : TracksLast (Cache.init (some N)) (fun _ => none) t0 := by
    refine ⟨by simp [Cache.init, keysNodup], fun q => ⟨?_, ?_⟩⟩
    · intro e' he'
      simp at he'
    · intro _
      simp [Cache.init, mapGet]
  obtain ⟨hwf, hL⟩ := run_tracks ops _ _ _ hmono hsafe h0
  rcases (hL k).1 e hlast with h | ⟨h1, h2⟩
  · have hx : ¬ now > e.expiry := by omega
    simp [Cache.get, h, hx]
  · have hfalse : False := by omega
    exact hfalse.elim

theorem safe_trace_get_last_put_witness :
    ((run (Cache.init (some 2))
        [(Op.put "a" (JSVal.vnum 7) (some 1000), 0)]).get "a" 500).1
      = JSVal.vnum 7 :=
  safe_trace_get_last_put 2 [(Op.put "a" (JSVal.vnum 7) (some 1000), 0)] "a"
    ⟨JSVal.vnum 7, 1000⟩ 0 500
    (by simp [TimesMono])
    (by simp [SafeTrace, Cache.init])
    (by decide) (by decide) (by decide)

/-- C2, counterexample: with capacity 2 and the store full with "a" and
"b", putting the already-present key "b" again evicts "a" and leaves a
single entry, refuting that no entry is evicted, that every other entry
remains present, and that overwrite-at-capacity is update-in-place. -/
theorem overwrite_at_capacity_evicts_sibling :
    mapGet ((((Cache.init (some 2)).set "a" (JSVal.vnum 1) (some 1000) 0).set "b"
        (JSVal.vnum 2) (some 1000) 0).set "b" (JSVal.vnum 3) (some 1000) 0).cache "a"
      = none ∧
    ((((Cache.init (some 2)).set "a" (JSVal.vnum 1) (some 1000) 0).set "b"
        (JSVal.vnum 2) (some 1000) 0).set "b" (JSVal.vnum 3) (some 1000) 0).cache.length
      = 1 := by
  refine ⟨by decide, by decide⟩

/-- C2 (amended): re-putting an already-present key while the store is
strictly below capacity is an in-place update: the size is unchanged, the
key holds the new entry, every other entry is untouched, and the key order
(insertion order for eviction purposes) is unchanged.  When the store is at
capacity, however, `set` first evicts the oldest entry even for a re-put,
so the no-eviction guarantee survives only in the capacity-1 self-overwrite
scenario of the spec, where the evicted key is the re-put key itself:
there, get(k) is 2 and the store size remains 1. -/
theorem overwrite_below_capacity_in_place (c : Cache) (key : String) (v : JSVal)
    (ttl : Option Int) (now : Int) (d : CacheEntry)
    (hlt : (c.cache.length : Int) < c.maxSize)
    (hmem : mapGet c.cache key = some d) :
    (c.set key v ttl now).cache.length = c.cache.length ∧
    mapGet (c.set key v ttl now).cache key = some ⟨v, now + ttl.getD 60000⟩ ∧
    (∀ q, q ≠ key → mapGet (c.set key v ttl now).cache q = mapGet c.cache q) ∧
    (c.set key v ttl now).cache.map Prod.fst = c.cache.map Prod.fst ∧
    ((((Cache.init (some 1)).set "k" (JSVal.vnum 1) (some 5000) 0).set "k"
        (JSVal.vnum 2) (some 5000) 0).get "k" 1).1 = JSVal.vnum 2 ∧
    (((Cache.init (some 1)).set "k" (JSVal.vnum 1) (some 5000) 0).set "k"
        (JSVal.vnum 2) (some 5000) 0).cache.length = 1 := by
  have hnotfull : ¬ ((c.cache.length : Int) ≥ c.maxSize) := by omega
  have hset : (c.set key v ttl now).cache
      = mapSet c.cache key ⟨v, now + ttl.getD 60000⟩ := by
    simp [Cache.set, hnotfull]
  refine ⟨?_, ?_, ?_, ?_, by decide, by decide⟩
  · rw [hset, mapSet_length]
    simp [hmem]
  · rw [hset]
    exact mapGet_mapSet_self _ _ _
  · intro q hq
    rw [hset]
    exact mapGet_mapSet_ne _ _ _ _ hq
  · rw [hset]
    exact mapSet_map_fst_of_mem _ _ _ (by simp [hmem])

theorem overwrite_below_capacity_in_place_witness :
    ((1 : Int) < 3) ∧
    mapGet ((Cache.mk [("x", ⟨JSVal.vnum 1, 10⟩)] 3).set "x"
        (JSVal.vnum 2) (some 5) 0).cache "x" = some ⟨JSVal.vnum 2, 5⟩ :=
  ⟨by decide,
   by
     have h := (overwrite_below_capacity_in_place ⟨[("x", ⟨JSVal.vnum 1, 10⟩)], 3⟩ "x"
       (JSVal.vnum 2) (some 5) 0 ⟨JSVal.vnum 1, 10⟩ (by decide) (by decide)).2.1
     simpa using h⟩

/-- C4: putting a brand-new key into a store already holding exactly
`capacity` entries deletes precisely the first key in insertion order (the
oldest surviving entry) and no other — independent of every entry's
remaining TTL, which `set` never inspects — and keeps the size at capacity;
the concrete capacity-2 scenario of the spec holds as well. -/
theorem insert_new_at_capacity_evicts_oldest (c : Cache) (key fk : String) (v : JSVal)
    (ttl : Option Int) (now : Int)
    (hwf : keysNodup c.cache)
    (hfull : (c.cache.length : Int) = c.maxSize)
    (hnew : mapGet c.cache key = none)
    (hfk : firstKey c.cache = some fk) :
    mapGet (c.set key v ttl now).cache fk = none ∧
    mapGet (c.set key v ttl now).cache key = some ⟨v, now + ttl.getD 60000⟩ ∧
    (∀ q, q ≠ key → q ≠ fk → mapGet (c.set key v ttl now).cache q = mapGet c.cache q) ∧
    (c.set key v ttl now).cache.length = c.cache.length ∧
    ((((((Cache.init (some 2)).set "a" (JSVal.vnum 1) (some 1000) 0).set "b"
        (JSVal.vnum 2) (some 1000) 0).set "c" (JSVal.vnum 3) (some 1000) 0).get
        "a" 0).1 = JSVal.vnull) ∧
    ((((((Cache.init (some 2)).set "a" (JSVal.vnum 1) (some 1000) 0).set "b"
        (JSVal.vnum 2) (some 1000) 0).set "c" (JSVal.vnum 3) (some 1000) 0).get
        "b" 0).1 = JSVal.vnum 2) ∧
    ((((((Cache.init (some 2)).set "a" (JSVal.vnum 1) (some 1000) 0).set "b"
        (JSVal.vnum 2) (some 1000) 0).set "c" (JSVal.vnum 3) (some 1000) 0).get
        "c" 0).1 = JSVal.vnum 3) := by
  have hge : (c.cache.length : Int) ≥ c.maxSize := le_of_eq hfull.symm
  have hset : (c.set key v ttl now).cache
      = mapSet (mapDelete c.cache fk) key ⟨v, now + ttl.getD 60000⟩ := by
    simp [Cache.set, hge, hfk]
  have hfkkey : fk ≠ key := by
    obtain ⟨d0, hd0⟩ := firstKey_mapGet _ _ hfk
    intro hcontra
    rw [hcontra, hnew] at hd0
    exact absurd hd0 (by simp)
  refine ⟨?_, ?_, ?_, ?_, by decide, by decide, by decide⟩
  · rw [hset, mapGet_mapSet_ne _ _ _ _ hfkkey]
    exact mapGet_mapDelete_self _ _ hwf
  · rw [hset]
    exact mapGet_mapSet_self _ _ _
  · intro q hq1 hq2
    rw [hset, mapGet_mapSet_ne _ _ _ _ hq1, mapGet_mapDelete_ne _ _ _ hq2]
  · rw [hset, mapSet_length]
    have hd : mapGet (mapDelete c.cache fk) key = none := by
      rw [mapGet_mapDelete_ne _ _ _ (Ne.symm hfkkey)]
      exact hnew
    rw [hd]
    rw [mapDelete_firstKey _ _ hfk]
    rcases hcc : c.cache with _ | ⟨p, tl⟩
    · rw [hcc] at hfk
      simp [firstKey] at hfk
    · simp

theorem insert_new_at_capacity_evicts_oldest_witness :
    keysNodup [("a", (⟨JSVal.vnum 1, 1000⟩ : CacheEntry)),
               ("b", (⟨JSVal.vnum 2, 2000⟩ : CacheEntry))] ∧
    mapGet ((Cache.mk [("a", ⟨JSVal.vnum 1, 1000⟩), ("b", ⟨JSVal.vnum 2, 2000⟩)] 2).set
        "c" (JSVal.vnum 3) (some 9) 0).cache "a" = none :=
  ⟨by decide,
   (insert_new_at_capacity_evicts_oldest
     ⟨[("a", ⟨JSVal.vnum 1, 1000⟩), ("b", ⟨JSVal.vnum 2, 2000⟩)], 2⟩ "c" "a"
     (JSVal.vnum 3) (some 9) 0 (by decide) (by decide) (by decide)
     (by decide)).1⟩

/-- C5, counterexample: an entry stored with ttl = 0 at time 0 has
expiresAt = 0; a get whose current time is exactly 0 — the expiration
timestamp being at, not before, the current time — returns the stored
value instead of the absent sentinel, because the code only expires on the
strict comparison Date.now() > expiry. -/
theorem get_at_expiry_instant_returns_value :
    (((Cache.init (some 5)).set "x" (JSVal.vstr "v") (some 0) 0).get "x" 0).1
      = JSVal.vstr "v" := by
  decide

/-- C5 (amended): get(key) returns the absent sentinel whenever the
entry's expiration timestamp is strictly before the current time, and an
entry stored with ttl = 0 is expired for any read at a strictly later
time. -/
theorem get_after_expiry_absent (c c2 : Cache) (key key2 : String) (d : CacheEntry)
    (v : JSVal) (now t now2 : Int)
    (h1 : mapGet c.cache key = some d) (h2 : d.expiry < now) (h3 : t < now2) :
    (c.get key now).1 = JSVal.vnull ∧
    ((c2.set key2 v (some 0) t).get key2 now2).1 = JSVal.vnull := by
  constructor
  · simp [Cache.get, h1, h2]
  · have hx : mapGet (c2.set key2 v (some 0) t).cache key2 = some ⟨v, t⟩ := by
      show mapGet (mapSet _ key2 ⟨v, t + (some (0 : Int)).getD 60000⟩) key2 = some ⟨v, t⟩
      rw [mapGet_mapSet_self]
      simp
    simp [Cache.get, hx, h3]

theorem get_after_expiry_absent_witness :
    ((Cache.mk [("a", ⟨JSVal.vnum 5, 10⟩)] 5).get "a" 11).1 = JSVal.vnull ∧
    (((Cache.init (some 5)).set "x" (JSVal.vstr "v") (some 0) 0).get "x" 1).1
      = JSVal.vnull :=
  get_after_expiry_absent ⟨[("a", ⟨JSVal.vnum 5, 10⟩)], 5⟩ (Cache.init (some 5))
    "a" "x" ⟨JSVal.vnum 5, 10⟩ (JSVal.vstr "v") 11 0 1
    (by decide) (by decide) (by decide)

/-- C7: a get on a key whose entry has expired (the stored expiry lying
strictly before the current time) returns the absent sentinel and deletes
the entry from the store as a side effect, so the key no longer appears in
the enumeration of stored entries afterwards. -/
theorem get_expired_deletes (c : Cache) (key : String) (d : CacheEntry) (now : Int)
    (hwf : keysNodup c.cache) (h1 : mapGet c.cache key = some d)
    (h2 : d.expiry < now) :
    (c.get key now).1 = JSVal.vnull ∧
    mapGet ((c.get key now).2).cache key = none ∧
    key ∉ ((c.get key now).2).cache.map Prod.fst := by
  have hc : ((c.get key now).2).cache = mapDelete c.cache key := by
    simp [Cache.get, h1, h2]
  have habs : mapGet ((c.get key now).2).cache key = none := by
    rw [hc]
    exact mapGet_mapDelete_self _ _ hwf
  exact ⟨by simp [Cache.get, h1, h2], habs,
    (mapGet_eq_none_iff _ _).mp habs⟩

theorem get_expired_deletes_witness :
    keysNodup [("a", (⟨JSVal.vnum 5, 10⟩ : CacheEntry))] ∧
    ((Cache.mk [("a", ⟨JSVal.vnum 5, 10⟩)] 5).get "a" 11).1 = JSVal.vnull ∧
    mapGet (((Cache.mk [("a", ⟨JSVal.vnum 5, 10⟩)] 5).get "a" 11).2).cache "a" = none :=
  ⟨by decide,
   (get_expired_deletes ⟨[("a", ⟨JSVal.vnum 5, 10⟩)], 5⟩ "a" ⟨JSVal.vnum 5, 10⟩ 11
     (by decide) (by decide) (by decide)).1,
   (get_expired_deletes ⟨[("a", ⟨JSVal.vnum 5, 10⟩)], 5⟩ "a" ⟨JSVal.vnum 5, 10⟩ 11
     (by decide) (by decide) (by decide)).2.1⟩

/-- C10: a key stored with the value null and not yet expired is returned
by get as null, the very same sentinel that get returns for a key that is
absent (never set, evicted, or expired-and-removed), so a caller cannot
distinguish the two through the get interface. -/
theorem stored_null_indistinguishable_from_absent (c c2 : Cache) (key key2 : String)
    (ex now now2 : Int)
    (h1 : mapGet c.cache key = some ⟨JSVal.vnull, ex⟩) (h2 : now ≤ ex)
    (h3 : mapGet c2.cache key2 = none) :
    (c.get key now).1 = JSVal.vnull ∧ (c2.get key2 now2).1 = JSVal.vnull := by
  constructor
  · have hx : ¬ now > ex := by omega
    simp [Cache.get, h1, hx]
  · simp [Cache.get, h3]

theorem stored_null_indistinguishable_from_absent_witness :
    ((Cache.mk [("n", ⟨JSVal.vnull, 100⟩)] 5).get "n" 50).1 = JSVal.vnull ∧
    ((Cache.init (some 5)).get "z" 50).1 = JSVal.vnull :=
  stored_null_indistinguishable_from_absent
    ⟨[("n", ⟨JSVal.vnull, 100⟩)], 5⟩ (Cache.init (some 5)) "n" "z" 100 50 50
    (by decide) (by decide) (by decide)
